import Mathlib

/-!
Shallow embedding of the fueled spine trace from
src/src/trace/implementations/spine_fueled_neu.rs.

The spine is generic over a timestamp type T with a lattice order; the code
only consumes T through less_equal (modelled by a Bool-valued parameter le),
through equality of frontier vectors (DecidableEq T), and through the minimum
and default elements (explicit parameters of withEffort). Rust usize values
are modelled as Nat. Fatal paths (failed assertions and panics) are modelled
by the error branch of Except String; every entry point that can be fatal
returns Except String (Spine T).

Batches, mergers and the batch builder are collaborators declared outside
src/; the behaviour the spine depends on is modelled from the spec and each
such definition is marked with a doc comment starting with
"Modelled from the spec:".
-/

namespace SpineFueled

/-- A batch of updates. The spine reads only the lower and upper frontier
annotations and the physical length of a batch, so the update tuples
themselves are not represented. -/
structure Batch (T : Type) where
  lower : List T
  upper : List T
  len : Nat
deriving DecidableEq

/-- Modelled from the spec: Batch::is_empty of the external batch trait
(spec section 6): a batch is empty exactly when it carries no tuples, i.e.
when its physical length is zero. -/
def Batch.isEmpty {T : Type} (b : Batch T) : Bool := b.len == 0

/-- Modelled from the spec: trace::Merger (spec section 6), declared outside
src/. Its work call decrements fuel by the work done, at one fuel unit per
update processed, and reports completion by leaving fuel positive. The
merger state is therefore modelled as the number of work units remaining. -/
structure Merger where
  todo : Nat
deriving DecidableEq

/-- Modelled from the spec: Merger::work. The merger consumes as much of the
supplied fuel as it has remaining work; completion is visible to the caller
as the fuel staying positive. -/
def Merger.work (m : Merger) (fuel : Nat) : Merger × Nat :=
  let consumed := min m.todo fuel
  (⟨m.todo - consumed⟩, fuel - consumed)

/-- Modelled from the spec: Merger::done. The finished batch covers the
ranges of both inputs, with the lower bound of the first and the upper bound
of the second, and one update per input update (no consolidation). -/
def mergeDone {T : Type} (b1 b2 : Batch T) : Batch T :=
  { lower := b1.lower, upper := b2.upper, len := b1.len + b2.len }

/-- Rust usize::max_value() for the 64-bit targets the crate builds on. -/
def usizeMax : Nat := 2 ^ 64 - 1

/-- The state of one layer of the spine: enum MergeState of the source. -/
inductive MergeState (T : Type) where
  | Vacant : MergeState T
  | Single : Batch T → MergeState T
  | Double : Batch T → Batch T → Option (List T) → Merger → MergeState T
deriving DecidableEq

/-- MergeState::len of the source: the number of actual updates in the level. -/
def MergeState.len {T : Type} : MergeState T → Nat
  | .Vacant => 0
  | .Single b => b.len
  | .Double b1 b2 _ _ => b1.len + b2.len

/-- MergeState::is_vacant of the source. -/
def MergeState.isVacant {T : Type} : MergeState T → Bool
  | .Vacant => true
  | _ => false

/-- MergeState::is_single of the source. -/
def MergeState.isSingle {T : Type} : MergeState T → Bool
  | .Single _ => true
  | _ => false

/-- True exactly for the Double variant (used to state the invariants). -/
def MergeState.isDouble {T : Type} : MergeState T → Bool
  | .Double _ _ _ _ => true
  | _ => false

/-- MergeState::complete of the source: run any in-progress merge with
unbounded fuel (usize::max_value()) and return the finished batch; the
assertion that fuel remains positive afterwards is the error branch. The
source consumes the layer, leaving Vacant in its place; callers of this
model install the Vacant themselves. -/
def MergeState.complete {T : Type} : MergeState T → Except String (Option (Batch T))
  | .Vacant => .ok none
  | .Single batch => .ok (some batch)
  | .Double b1 b2 _frontier m =>
    let wr := m.work usizeMax
    if wr.2 > 0 then .ok (some (mergeDone b1 b2))
    else .error "assertion failed: fuel > 0"

/-- MergeState::work of the source: apply a bounded amount of fuel to a
Double; if fuel remains afterwards the merge finished and the merged batch
is returned with the layer left Vacant, otherwise the Double is put back.
Other variants are untouched. Returns (finished batch, new layer state,
remaining fuel). -/
def MergeState.work {T : Type} : MergeState T → Nat → Option (Batch T) × MergeState T × Nat
  | .Double b1 b2 frontier m, fuel =>
    let wr := m.work fuel
    if wr.2 > 0 then (some (mergeDone b1 b2), .Vacant, wr.2)
    else (none, .Double b1 b2 frontier wr.1, wr.2)
  | x, fuel => (none, x, fuel)

/-- MergeState::begin_merge of the source: asserts that the upper bound of
the first batch matches the lower bound of the second, then starts a merge.
The initial amount of merge work is modelled from the spec (one fuel unit
per update of either input). -/
def beginMerge {T : Type} [DecidableEq T] (batch1 batch2 : Batch T)
    (frontier : Option (List T)) : Except String (MergeState T) :=
  if batch1.upper = batch2.lower then
    .ok (.Double batch1 batch2 frontier ⟨batch1.len + batch2.len⟩)
  else .error "assertion failed: batch1.upper() == batch2.lower()"

/-- MergeState::insert of the source: a Vacant layer becomes Single, a
Single layer begins a merge, and inserting into a Double is a fatal logic
error. -/
def MergeState.insert {T : Type} [DecidableEq T] (ms : MergeState T) (batch : Batch T)
    (frontier : Option (List T)) : Except String (MergeState T) :=
  match ms with
  | .Vacant => .ok (.Single batch)
  | .Single batch_old => beginMerge batch_old batch frontier
  | .Double _ _ _ _ => .error "Attempted to insert batch into incomplete merge!"

/-- The spine state: struct Spine of the source. The operator info, logger,
activator and phantom fields carry no spine-observable state (the logging
calls in the source are commented out and the activator only re-schedules
the operator), so they are omitted. -/
structure Spine (T : Type) where
  advance_frontier : List T
  through_frontier : List T
  merging : List (MergeState T)
  pending : List (Batch T)
  upper : List T
  effort : Nat
deriving DecidableEq

/-- Indexing into the layer array. Inside the source every read is in
bounds; out-of-range reads default to Vacant, which keeps the model total
and never changes an in-bounds result. -/
def layerAt {T : Type} : List (MergeState T) → Nat → MergeState T
  | [], _ => .Vacant
  | ms :: _, 0 => ms
  | _ :: rest, j + 1 => layerAt rest j

/-- The padding loop `while self.merging.len() <= index { push Vacant }`
shared by insert_at and roll_up: extend the layer array with Vacants so its
length is at least n. -/
def padTo {T : Type} (ml : List (MergeState T)) (n : Nat) : List (MergeState T) :=
  ml ++ List.replicate (n - ml.length) .Vacant

/-- Spine::insert_at of the source: pad the layer array, attach the advance
frontier when the target layer is the top one, then insert into the target
layer (fatal if that layer is a Double). -/
def insertAt {T : Type} [DecidableEq T] (af : List T) (ml : List (MergeState T))
    (batch : Batch T) (index : Nat) : Except String (List (MergeState T)) :=
  let ml' := padTo ml (index + 1)
  let frontier := if index = ml'.length - 1 then some af else none
  ((layerAt ml' index).insert batch frontier).map (fun ms => ml'.set index ms)

/-- Spine::apply_fuel of the source: walk the layers bottom-up (the index
range is fixed at entry, as in Rust), give each Double the remaining fuel,
and install any finished batch one layer up. -/
def applyFuel {T : Type} [DecidableEq T] (af : List T) (ml : List (MergeState T))
    (fuel : Nat) : Except String (List (MergeState T) × Nat) :=
  (List.range ml.length).foldlM
    (fun st index =>
      let wr := (layerAt st.1 index).work st.2
      let ml' := st.1.set index wr.2.1
      match wr.1 with
      | some batch => (insertAt af ml' batch (index + 1)).map (fun ml'' => (ml'', wr.2.2))
      | none => .ok (ml', wr.2.2))
    (ml, fuel)

/-- Spine::roll_up of the source: pad the layer array through `index`,
forcibly complete every layer at or below `index` (each becomes Vacant),
fold-merging the completed batches in order, and install the folded result
at layer index+1. -/
def rollUp {T : Type} [DecidableEq T] (af : List T) (ml : List (MergeState T))
    (index : Nat) : Except String (List (MergeState T)) :=
  let ml' := padTo ml (index + 1)
  do
    let merge ← (ml'.take (index + 1)).foldlM
      (fun acc level => do
        let completed ← level.complete
        match acc, completed with
        | some batch_new, some batch_old => do
          let d ← beginMerge batch_old batch_new none
          d.complete
        | none, completed => .ok completed
        | acc, none => .ok acc)
      (none : Option (Batch T))
    let ml'' := List.replicate (index + 1) (MergeState.Vacant : MergeState T)
      ++ ml'.drop (index + 1)
    match merge with
    | some batch => insertAt af ml'' batch (index + 1)
    | none => .ok ml''

/-- Structural helper for trailing_zeros: the first argument is a fuel bound
on the recursion depth (halving n reaches an odd number or zero within n
steps). -/
def tzGo : Nat → Nat → Nat
  | 0, _ => 0
  | fuel + 1, n => if n % 2 = 1 ∨ n = 0 then 0 else tzGo fuel (n / 2) + 1

/-- Rust u64::trailing_zeros restricted to positive arguments: the number of
trailing zero bits, i.e. the exponent of the largest power of two dividing
n. (The source only applies it to results of next_power_of_two, which are
positive.) -/
def trailingZeros (n : Nat) : Nat := tzGo n n

/-- Structural helper for next_power_of_two: starting from the power p, keep
doubling until n is reached; the fuel n bounds the number of doublings. -/
def np2Go : Nat → Nat → Nat → Nat
  | 0, _, p => p
  | fuel + 1, n, p => if n ≤ p then p else np2Go fuel n (2 * p)

/-- Rust usize::next_power_of_two: the smallest power of two greater than or
equal to n, with 1 returned for n = 0. -/
def nextPowerOfTwo (n : Nat) : Nat := np2Go n n 1

/-- The layer index consider_merges computes for a drained batch:
`batch.len().next_power_of_two().trailing_zeros() as usize`. -/
def batchDrainIndex {T : Type} (batch : Batch T) : Nat :=
  trailingZeros (nextPowerOfTwo batch.len)

/-- The body of the while loop of Spine::tidy_layers, with the iteration
count bounded by the initial array length (each demotion shortens the array
by one and requires length > 1, so the initial length bounds the number of
iterations). A demotion pops the top layer and stores it one level down,
where the guard requires a Vacant. The is_single test of the source is
checked once before the loop, not re-checked here, exactly as in Rust. -/
def tidyGo {T : Type} : Nat → List (MergeState T) → List (MergeState T)
  | 0, l => l
  | fuel + 1, l =>
    if trailingZeros (nextPowerOfTwo ((layerAt l (l.length - 1)).len)) < l.length
        ∧ 1 < l.length ∧ (layerAt l (l.length - 2)).isVacant = true then
      tidyGo fuel (l.dropLast.dropLast ++ [layerAt l (l.length - 1)])
    else l

/-- Spine::tidy_layers of the source. Reading merging[length-1] of an empty
layer array is a fatal index underflow in Rust, modelled as the error
branch; the source only calls tidy_layers with a non-empty layer array. -/
def tidyLayers {T : Type} (ml : List (MergeState T)) : Except String (List (MergeState T)) :=
  match ml with
  | [] => .error "index out of bounds: merging is empty"
  | _ =>
    if (layerAt ml (ml.length - 1)).isSingle = true then .ok (tidyGo ml.length ml)
    else .ok ml

/-- Steps 1 to 4 of Spine::introduce_batch, with the Step 0 fuel budget a
parameter: apply fuel to in-progress merges, roll up the layers at or below
the target index, install the batch, and tidy the top of the layer array. -/
def introduceBatchSteps {T : Type} [DecidableEq T] (s : Spine T) (batch : Batch T)
    (batch_index : Nat) (fuel : Nat) : Except String (Spine T) := do
  let st ← applyFuel s.advance_frontier s.merging fuel
  let ml ← rollUp s.advance_frontier st.1 batch_index
  let ml2 ← insertAt s.advance_frontier ml batch batch_index
  let ml3 ← tidyLayers ml2
  .ok { s with merging := ml3 }

/-- Spine::introduce_batch of the source. Step 0 computes the fuel budget
(the println for large indices is output only and not modelled); the
remaining steps are introduceBatchSteps. -/
def introduceBatch {T : Type} [DecidableEq T] (s : Spine T) (batch : Batch T)
    (batch_index : Nat) : Except String (Spine T) :=
  let fuel := 1 <<< batch_index
  let fuel := fuel * s.effort
  let fuel := fuel * s.merging.length
  introduceBatchSteps s batch batch_index fuel

/-- The loop body of Spine::consider_merges, with the iteration count
bounded by the length of the pending queue: each iteration removes the head
of pending and introduce_batch never touches pending, so the queue length
at entry bounds the number of iterations. The activator call at the end of
the loop body only re-schedules the operator and has no spine-observable
effect. -/
def considerGo {T : Type} [DecidableEq T] (le : T → T → Bool) :
    Nat → Spine T → Except String (Spine T)
  | 0, s => .ok s
  | fuel + 1, s =>
    match s.pending with
    | [] => .ok s
    | batch :: rest =>
      if s.through_frontier.all (fun t1 => batch.upper.any fun t2 => le t2 t1) then do
        let s' ← introduceBatch { s with pending := rest } batch (batchDrainIndex batch)
        considerGo le fuel s'
      else .ok s

/-- Spine::consider_merges of the source: drain pending batches whose upper
frontier is dominated by the through frontier into the layers. -/
def considerMerges {T : Type} [DecidableEq T] (le : T → T → Bool) (s : Spine T) :
    Except String (Spine T) :=
  considerGo le s.pending.length s

/-- Trace::insert of the source: assert the batch is non-empty
(lower ≠ upper) and contiguous (lower = self.upper), record the new upper,
append the batch to pending, and consider merges. -/
def insertS {T : Type} [DecidableEq T] (le : T → T → Bool) (s : Spine T)
    (batch : Batch T) : Except String (Spine T) :=
  if batch.lower = batch.upper then
    .error "assertion failed: batch.lower() != batch.upper()"
  else if batch.lower = s.upper then
    considerMerges le { s with upper := batch.upper, pending := s.pending ++ [batch] }
  else .error "assertion failed: batch.lower() == self.upper"

/-- Modelled from the spec: trace::Builder::done (spec section 6), declared
outside src/. The builder is fresh in close(), so the produced batch has no
tuples and length zero. Section 6 writes the argument list as
done(lower, tuples, upper); the behaviour sections 4.1 and 8 require of
close (the sentinel is an empty batch and the spine upper becomes empty
afterwards, making a second close a no-op) fixes the middle frontier
argument as the upper bound of the produced batch, with the final argument
a compaction hint the model does not need. -/
def builderDone {T : Type} (lower upper _since : List T) : Batch T :=
  { lower := lower, upper := upper, len := 0 }

/-- Trace::close of the source: if upper is non-empty, build and insert an
empty sentinel batch via builder.done(&self.upper, &[], &self.upper). -/
def closeS {T : Type} [DecidableEq T] (le : T → T → Bool) (s : Spine T) :
    Except String (Spine T) :=
  if s.upper.isEmpty then .ok s
  else insertS le s (builderDone s.upper [] s.upper)

/-- Trace::exert of the source: apply the given effort as fuel. -/
def exertS {T : Type} [DecidableEq T] (s : Spine T) (effort : Nat) :
    Except String (Spine T) :=
  (applyFuel s.advance_frontier s.merging effort).map (fun st => { s with merging := st.1 })

/-- TraceReader::advance_by of the source: record the advance frontier and,
when it is empty, discard pending and the layer array. -/
def advanceBy {T : Type} (s : Spine T) (frontier : List T) : Spine T :=
  let s := { s with advance_frontier := frontier }
  if s.advance_frontier.length = 0 then { s with pending := [], merging := [] } else s

/-- TraceReader::distinguish_since of the source. -/
def distinguishSince {T : Type} [DecidableEq T] (le : T → T → Bool) (s : Spine T)
    (frontier : List T) : Except String (Spine T) :=
  considerMerges le { s with through_frontier := frontier }

/-- The domination test of cursor_through: every element of the query upper
is reached from some element of the frontier f under less_equal. -/
def includeB {T : Type} (le : T → T → Bool) (upper f : List T) : Bool :=
  upper.all (fun t1 => f.any fun t2 => le t2 t1)

/-- The batches a cursor draws from one layer: both halves of a Double, the
batch of a Single, nothing from a Vacant; empty batches are skipped. -/
def msBatches {T : Type} : MergeState T → List (Batch T)
  | .Double b1 b2 _ _ =>
    (if b1.isEmpty then [] else [b1]) ++ (if b2.isEmpty then [] else [b2])
  | .Single b => if b.isEmpty then [] else [b]
  | .Vacant => []

/-- The layer part of the cursor storage: layers are walked top-down
(merging.iter().rev()). -/
def layerBatches {T : Type} (ml : List (MergeState T)) : List (Batch T) :=
  ml.reverse.foldl (fun acc ms => acc ++ msBatches ms) []

/-- The pending walk of cursor_through: empty batches are skipped; a
non-empty batch straddled by the query upper is fatal; otherwise the batch
is included exactly when its upper frontier is dominated. -/
def pendingWalk {T : Type} [DecidableEq T] (le : T → T → Bool) (upper : List T) :
    List (Batch T) → Except String (List (Batch T))
  | [] => .ok []
  | b :: rest =>
    if b.isEmpty then pendingWalk le upper rest
    else
      let include_lower := includeB le upper b.lower
      let include_upper := includeB le upper b.upper
      if include_lower ≠ include_upper ∧ upper ≠ b.lower then
        .error "cursor_through: upper straddles batch"
      else do
        let r ← pendingWalk le upper rest
        .ok (if include_upper then b :: r else r)

/-- TraceReader::cursor_through of the source. The cursor is modelled by
the storage vector of batches it draws from (pushed in the same order as
the source pushes cursors). The Option in the result mirrors the declared
Option return type; assertion failures and the straddle panic are the
Except error branch. -/
def cursorThrough {T : Type} [DecidableEq T] (le : T → T → Bool) (s : Spine T)
    (upper : List T) : Except String (Option (List (Batch T))) :=
  if s.advance_frontier.length = 0 then
    .error "assertion failed: self.advance_frontier.len() > 0"
  else if ¬ (upper.all fun t1 => s.through_frontier.any fun t2 => le t2 t1) then
    .error "assertion failed: upper not greater or equal to self.through_frontier"
  else do
    let ps ← pendingWalk le upper s.pending
    .ok (some (layerBatches s.merging ++ ps))

/-- Spine::with_effort of the source: a zero effort multiplier is replaced
by one; the initial frontiers are [T::minimum()] and the initial upper is
[T::default()], supplied here as explicit parameters. -/
def withEffort {T : Type} (tmin tdefault : T) (effort : Nat) : Spine T :=
  let effort := if effort = 0 then 1 else effort
  { advance_frontier := [tmin]
    through_frontier := [tmin]
    merging := []
    pending := []
    upper := [tdefault]
    effort := effort }

/-- The tidy loop as the amended claim states it, one condition per claim
word: while the top layer exists and is Single, the ceiling base-two
logarithm of its length is strictly below the layer count, and the layer
immediately below it is Vacant, demote the top layer one level (into the
Vacant slot below it); no other layer is modified. The fuel bounds the
iteration count as in tidyGo. -/
def specTidyGo {T : Type} : Nat → List (MergeState T) → List (MergeState T)
  | 0, l => l
  | fuel + 1, l =>
    if (layerAt l (l.length - 1)).isSingle = true
        ∧ Nat.clog 2 ((layerAt l (l.length - 1)).len) < l.length
        ∧ 1 < l.length ∧ (layerAt l (l.length - 2)).isVacant = true then
      specTidyGo fuel (l.dropLast.dropLast ++ [layerAt l (l.length - 1)])
    else l

/-- The amended-claim description of tidy_layers. -/
def specTidy {T : Type} (l : List (MergeState T)) : List (MergeState T) :=
  specTidyGo l.length l

/-- The order on Nat timestamps used by the concrete witness states. -/
def natLe (a b : Nat) : Bool := Nat.ble a b

/-- A spine with two adjacent in-progress merges high up and fuel too small
to finish them: layer 3 holds the oldest pair [0,1),[1,2), layer 2 the pair
[2,3),[3,4), each with 50 units of merge work remaining. -/
def c1cexSpine : Spine Nat :=
  { advance_frontier := [0], through_frontier := [0]
    merging := [.Vacant, .Vacant,
      .Double ⟨[2], [3], 25⟩ ⟨[3], [4], 25⟩ none ⟨50⟩,
      .Double ⟨[0], [1], 25⟩ ⟨[1], [2], 25⟩ none ⟨50⟩]
    pending := [], upper := [4], effort := 1 }

/-- The state c1cexSpine reaches after introduce_batch(⟨[4],[5],1⟩, 0): the
four units of fuel only advance the layer-2 merge, and layers 2 and 3 are
still both Double. -/
def c1cexResult : Spine Nat :=
  { c1cexSpine with
    merging := [.Single ⟨[4], [5], 1⟩, .Vacant,
      .Double ⟨[2], [3], 25⟩ ⟨[3], [4], 25⟩ none ⟨46⟩,
      .Double ⟨[0], [1], 25⟩ ⟨[1], [2], 25⟩ none ⟨50⟩] }

/-- A fresh spine used by the C1 witness. -/
def c1wSpine : Spine Nat :=
  { advance_frontier := [0], through_frontier := [0], merging := []
    pending := [], upper := [0], effort := 4 }

/-- The state c1wSpine reaches after introduce_batch(⟨[0],[1],2⟩, 1): the
batch lands in layer 1 and tidy_layers demotes it to layer 0. -/
def c1wResult : Spine Nat :=
  { c1wSpine with merging := [.Single ⟨[0], [1], 2⟩] }

/-- A fresh spine with upper [5], used for close(). -/
def c2Spine : Spine Nat :=
  { advance_frontier := [0], through_frontier := [0], merging := []
    pending := [], upper := [5], effort := 4 }

/-- The state c2Spine reaches after close(): upper is empty and the
sentinel batch with lower [5] and empty upper sits in pending. -/
def c2Result : Spine Nat :=
  { c2Spine with upper := [], pending := [⟨[5], [], 0⟩] }

/-- A spine with one layer batch and one pending batch, used by the C3
witness. -/
def c3Spine : Spine Nat :=
  { advance_frontier := [0], through_frontier := [0]
    merging := [.Single ⟨[0], [1], 1⟩], pending := [⟨[1], [2], 1⟩]
    upper := [2], effort := 4 }

/-- A spine on which a perfectly contiguous, non-empty insert is fatal: the
incoming batch forces roll_up to push the layer-0 batch into the layer-1
merge, which is still in progress because the two units of fuel of the
insert do not cover its six units of remaining work. -/
def c4cexSpine : Spine Nat :=
  { advance_frontier := [0], through_frontier := [100]
    merging := [.Single ⟨[2], [5], 1⟩, .Double ⟨[0], [1], 3⟩ ⟨[1], [2], 3⟩ none ⟨6⟩]
    pending := [], upper := [5], effort := 1 }

/-- A fresh spine used by the C4 witness. -/
def c4wSpine : Spine Nat :=
  { advance_frontier := [0], through_frontier := [0], merging := []
    pending := [], upper := [0], effort := 4 }

/-- A layer array whose top layer is a Single of length 2 sitting at index
1 above a Vacant: the ceiling base-two logarithm of its length equals its
own index, so the claimed demotion condition (strictly below length - 1)
fails while the source condition (strictly below length) holds. -/
def c6cexList : List (MergeState Nat) := [.Vacant, .Single ⟨[0], [1], 2⟩]

/-! Helper lemmas about Except, list indexing and the two bit-twiddling
functions of the source. -/

theorem exceptBind_ok {ε α β : Type} {x : Except ε α} {f : α → Except ε β} {b : β} :
    x >>= f = .ok b ↔ ∃ a, x = .ok a ∧ f a = .ok b := by
  cases x with
  | error e => simp [Bind.bind, Except.bind]
  | ok a => simp [Bind.bind, Except.bind]

theorem exceptMap_ok {ε α β : Type} {x : Except ε α} {f : α → β} {b : β} :
    x.map f = .ok b ↔ ∃ a, x = .ok a ∧ f a = b := by
  cases x with
  | error e => simp [Except.map]
  | ok a => simp [Except.map]

theorem layerAt_of_le {T : Type} {l : List (MergeState T)} {j : Nat}
    (h : l.length ≤ j) : layerAt l j = .Vacant := by
  induction l generalizing j with
  | nil => rfl
  | cons a rest ih =>
    cases j with
    | zero => simp at h
    | succ j => exact ih (by simpa using h)

theorem layerAt_append {T : Type} (l1 l2 : List (MergeState T)) (j : Nat) :
    layerAt (l1 ++ l2) j = if j < l1.length then layerAt l1 j else layerAt l2 (j - l1.length) := by
  induction l1 generalizing j with
  | nil => simp [layerAt]
  | cons a rest ih =>
    cases j with
    | zero => simp [layerAt]
    | succ j => simpa [layerAt, Nat.succ_lt_succ_iff] using ih j

theorem layerAt_replicate_vacant {T : Type} (k j : Nat) :
    layerAt (List.replicate k (MergeState.Vacant : MergeState T)) j = .Vacant := by
  induction k generalizing j with
  | zero => rfl
  | succ k ih =>
    cases j with
    | zero => rfl
    | succ j => simpa [List.replicate, layerAt] using ih j

theorem layerAt_padTo {T : Type} (ml : List (MergeState T)) (n j : Nat) :
    layerAt (padTo ml n) j = layerAt ml j := by
  rw [padTo, layerAt_append]
  split
  · rfl
  · rename_i h
    rw [layerAt_replicate_vacant, layerAt_of_le (Nat.le_of_not_lt h)]

theorem padTo_length {T : Type} (ml : List (MergeState T)) (n : Nat) :
    (padTo ml n).length = max ml.length n := by
  simp [padTo]
  omega

theorem layerAt_set_eq {T : Type} {l : List (MergeState T)} {k : Nat} (v : MergeState T)
    (h : k < l.length) : layerAt (l.set k v) k = v := by
  induction l generalizing k with
  | nil => simp at h
  | cons a rest ih =>
    cases k with
    | zero => rfl
    | succ k => exact ih (by simpa using h)

theorem layerAt_set_ne {T : Type} {l : List (MergeState T)} {j k : Nat} (v : MergeState T)
    (h : j ≠ k) : layerAt (l.set k v) j = layerAt l j := by
  induction l generalizing j k with
  | nil => rfl
  | cons a rest ih =>
    cases k with
    | zero =>
      cases j with
      | zero => exact absurd rfl h
      | succ j => rfl
    | succ k =>
      cases j with
      | zero => rfl
      | succ j => exact ih (fun hc => h (by simpa using hc))

theorem layerAt_dropLast {T : Type} {l : List (MergeState T)} {j : Nat}
    (h : j + 1 < l.length) : layerAt l.dropLast j = layerAt l j := by
  induction l generalizing j with
  | nil => rfl
  | cons a rest ih =>
    cases rest with
    | nil => simp at h
    | cons b t =>
      cases j with
      | zero => rfl
      | succ j => exact ih (by simpa using h)

theorem layerAt_append_singleton {T : Type} (l : List (MergeState T)) (x : MergeState T) :
    layerAt (l ++ [x]) l.length = x := by
  rw [layerAt_append]
  simp [layerAt]

theorem isSingle_not_isDouble {T : Type} {ms : MergeState T}
    (h : ms.isSingle = true) : ms.isDouble = false := by
  cases ms <;> simp_all [MergeState.isSingle, MergeState.isDouble]

theorem tzGo_pow (k : Nat) : ∀ fuel, 2 ^ k ≤ fuel → tzGo fuel (2 ^ k) = k := by
  induction k with
  | zero =>
    intro fuel hf
    cases fuel with
    | zero => simp at hf
    | succ fuel => simp [tzGo]
  | succ k ih =>
    intro fuel hf
    cases fuel with
    | zero =>
      have hp : 0 < 2 ^ (k + 1) := Nat.pos_pow_of_pos _ (by norm_num)
      omega
    | succ fuel =>
      have h2 : (2 : Nat) ^ (k + 1) % 2 = 0 := by
        simp [Nat.pow_succ, Nat.mul_mod_left]
      have hdiv : (2 : Nat) ^ (k + 1) / 2 = 2 ^ k := by
        rw [Nat.pow_succ, Nat.mul_div_cancel] ; norm_num
      have hfuel : 2 ^ k ≤ fuel := by
        have : 2 ^ k + 1 ≤ 2 ^ (k + 1) := by
          have h1 : (1 : Nat) ≤ 2 ^ k := Nat.one_le_two_pow
          calc 2 ^ k + 1 ≤ 2 ^ k + 2 ^ k := by omega
          _ = 2 ^ (k + 1) := by rw [Nat.pow_succ]; omega
        omega
      have hp : 0 < 2 ^ (k + 1) := Nat.pos_pow_of_pos _ (by norm_num)
      rw [tzGo]
      rw [if_neg (by omega), hdiv, ih fuel hfuel]

theorem trailingZeros_pow (k : Nat) : trailingZeros (2 ^ k) = k :=
  tzGo_pow k (2 ^ k) (Nat.le_refl _)

theorem np2Go_eq (fuel : Nat) : ∀ k n, Nat.clog 2 n ≤ k + fuel → k ≤ Nat.clog 2 n →
    np2Go fuel n (2 ^ k) = 2 ^ Nat.clog 2 n := by
  induction fuel with
  | zero =>
    intro k n h1 h2
    have : k = Nat.clog 2 n := by omega
    simp [np2Go, this]
  | succ fuel ih =>
    intro k n h1 h2
    rw [np2Go]
    by_cases hle : n ≤ 2 ^ k
    · have hck : Nat.clog 2 n ≤ k := (Nat.le_pow_iff_clog_le (by norm_num)).mp hle
      have : k = Nat.clog 2 n := by omega
      rw [if_pos hle, this]
    · have hck : k < Nat.clog 2 n := by
        by_contra hc
        exact hle ((Nat.le_pow_iff_clog_le (by norm_num)).mpr (by omega))
      rw [if_neg hle]
      have : 2 * 2 ^ k = 2 ^ (k + 1) := by rw [Nat.pow_succ]; ring
      rw [this, ih (k + 1) n (by omega) (by omega)]

theorem nextPowerOfTwo_eq (n : Nat) : nextPowerOfTwo n = 2 ^ Nat.clog 2 n := by
  have h1 : Nat.clog 2 n ≤ n := by
    have hn : n ≤ 2 ^ n := Nat.le_of_lt (Nat.lt_two_pow n)
    exact (Nat.le_pow_iff_clog_le (by norm_num)).mp hn
  have := np2Go_eq n 0 n (by omega) (by omega)
  simpa [nextPowerOfTwo] using this

theorem tz_np2_clog (n : Nat) :
    trailingZeros (nextPowerOfTwo n) = Nat.clog 2 n := by
  rw [nextPowerOfTwo_eq, trailingZeros_pow]

theorem layerAt_demote_top {T : Type} (l : List (MergeState T)) :
    layerAt (l.dropLast.dropLast ++ [layerAt l (l.length - 1)])
      ((l.dropLast.dropLast ++ [layerAt l (l.length - 1)]).length - 1)
      = layerAt l (l.length - 1) := by
  have hdd : (l.dropLast.dropLast ++ [layerAt l (l.length - 1)]).length - 1
      = l.dropLast.dropLast.length := by simp
  rw [hdd, layerAt_append_singleton]

theorem tidyGo_eq_spec {T : Type} : ∀ (fuel : Nat) (l : List (MergeState T)),
    (layerAt l (l.length - 1)).isSingle = true → tidyGo fuel l = specTidyGo fuel l := by
  intro fuel
  induction fuel with
  | zero => intro l h; rfl
  | succ fuel ih =>
    intro l h
    rw [tidyGo, specTidyGo, tz_np2_clog]
    by_cases hc : Nat.clog 2 ((layerAt l (l.length - 1)).len) < l.length
        ∧ 1 < l.length ∧ (layerAt l (l.length - 2)).isVacant = true
    · rw [if_pos hc, if_pos ⟨h, hc⟩]
      exact ih _ (by rw [layerAt_demote_top]; exact h)
    · rw [if_neg hc, if_neg (fun hh => hc hh.2)]

/-- C6 (amended): tidy_layers demotes the top layer down one level exactly
while the top layer is Single, the ceiling base-two logarithm of its length
is strictly less than the layer count, and the layer immediately below it
is Vacant; no other layers are modified. (The source compares the logarithm
against the layer count, not against the top layer index length-1 as the
claim states.) -/
theorem c6_tidy_layers_spec {T : Type} (ms : MergeState T) (l : List (MergeState T)) :
    tidyLayers (ms :: l) = .ok (specTidy (ms :: l)) := by
  show (if (layerAt (ms :: l) ((ms :: l).length - 1)).isSingle = true
    then Except.ok (tidyGo (ms :: l).length (ms :: l)) else .ok (ms :: l))
      = .ok (specTidy (ms :: l))
  unfold specTidy
  by_cases h : (layerAt (ms :: l) ((ms :: l).length - 1)).isSingle = true
  · rw [if_pos h, tidyGo_eq_spec _ _ h]
  · rw [if_neg h]
    have hstep : specTidyGo (ms :: l).length (ms :: l) = ms :: l := by
      have hlen : (ms :: l).length = l.length + 1 := rfl
      rw [hlen, specTidyGo, if_neg (fun hh => h hh.1)]
    rw [hstep]

/-- C6 counterexample: on the layer array [Vacant, Single(len 2)] the source
demotes the top layer (its condition is clog < length), although the
condition of the claim, clog strictly below length - 1, does not hold, so
under the claim the array would be left unchanged. -/
theorem c6_counterexample :
    tidyLayers c6cexList = .ok [.Single ⟨[0], [1], 2⟩]
    ∧ ¬ (Nat.clog 2 ((layerAt c6cexList (c6cexList.length - 1)).len) < c6cexList.length - 1)
    ∧ ([.Single (⟨[0], [1], 2⟩ : Batch Nat)] : List (MergeState Nat)) ≠ c6cexList := by
  refine ⟨rfl, ?_, by decide⟩
  rw [← tz_np2_clog]
  decide

/-- C5: the fuel budget of Step 0 of introduce_batch is
(1 << batch_index) * effort * layer count: introduce_batch equals the
remaining steps run on exactly that budget, the shift equals the power of
two, and with an empty layer array the budget is zero. -/
theorem c5_fuel_budget {T : Type} [DecidableEq T] (s : Spine T) (batch : Batch T) (i : Nat) :
    introduceBatch s batch i
      = introduceBatchSteps s batch i ((1 <<< i) * s.effort * s.merging.length)
    ∧ (1 <<< i) * s.effort * s.merging.length = 2 ^ i * s.effort * s.merging.length
    ∧ introduceBatch { s with merging := [] } batch i
      = introduceBatchSteps { s with merging := [] } batch i 0 := by
  refine ⟨rfl, ?_, rfl⟩
  rw [Nat.shiftLeft_eq, one_mul]

/-- C7: the layer index consider_merges passes to introduce_batch for a
drained batch is the ceiling base-two logarithm of the batch length, and 0
for an empty batch. -/
theorem c7_drain_index {T : Type} (batch : Batch T) :
    batchDrainIndex batch = if batch.len = 0 then 0 else Nat.clog 2 batch.len := by
  rw [batchDrainIndex, tz_np2_clog]
  split
  · rename_i h; rw [h, Nat.clog_zero_right]
  · rfl

/-- C8: advance_by with the empty frontier empties the advance frontier and
discards pending and the layer array, leaving every other field unchanged,
and a second advance_by([]) leaves the state unchanged. -/
theorem c8_advance_by_empty {T : Type} (s : Spine T) :
    advanceBy s [] = { s with advance_frontier := [], pending := [], merging := [] }
    ∧ advanceBy (advanceBy s []) [] = advanceBy s [] :=
  ⟨rfl, rfl⟩

/-- C9: whenever cursor_through returns (rather than failing an assertion
or panicking), the returned Option is Some; the None branch of the declared
return type is never produced. -/
theorem c9_cursor_through_some {T : Type} [DecidableEq T] (le : T → T → Bool)
    (s : Spine T) (upper : List T) : cursorThrough le s upper ≠ .ok none := by
  unfold cursorThrough
  split
  · simp
  · split
    · simp
    · cases h : pendingWalk le upper s.pending with
      | error e => simp [Bind.bind, Except.bind, h]
      | ok ps => simp [Bind.bind, Except.bind, h]

/-- C10: with_effort stores the given effort multiplier except that zero is
replaced by one, so construction with effort 0 and with effort 1 coincide. -/
theorem c10_with_effort {T : Type} (tmin tdefault : T) (e : Nat) :
    (withEffort tmin tdefault 0).effort = 1
    ∧ (withEffort tmin tdefault (e + 1)).effort = e + 1
    ∧ withEffort tmin tdefault 0 = withEffort tmin tdefault 1 := by
  refine ⟨rfl, ?_, rfl⟩
  simp [withEffort]

theorem exceptBind_error {ε α β : Type} {x : Except ε α} {f : α → Except ε β} {e : ε} :
    x >>= f = .error e ↔ (x = .error e ∨ ∃ a, x = .ok a ∧ f a = .error e) := by
  cases x with
  | error e1 => simp [Bind.bind, Except.bind]
  | ok a => simp [Bind.bind, Except.bind]

theorem pendingWalk_error_iff {T : Type} [DecidableEq T] (le : T → T → Bool)
    (upper : List T) (pl : List (Batch T)) :
    (∃ e, pendingWalk le upper pl = .error e) ↔
    ∃ b, b ∈ pl ∧ b.isEmpty = false ∧
      includeB le upper b.lower ≠ includeB le upper b.upper ∧ upper ≠ b.lower := by
  induction pl with
  | nil => simp [pendingWalk]
  | cons b rest ih =>
    rw [pendingWalk]
    by_cases hbe : b.isEmpty = true
    · rw [if_pos hbe, ih]
      constructor
      · rintro ⟨b', hm, hp⟩
        exact ⟨b', List.mem_cons_of_mem _ hm, hp⟩
      · rintro ⟨b', hm, hp⟩
        rcases List.mem_cons.mp hm with hh | hh
        · subst hh; rw [hbe] at hp; exact absurd hp.1 (by simp)
        · exact ⟨b', hh, hp⟩
    · have hbe' : b.isEmpty = false := by simpa using hbe
      rw [if_neg hbe]
      by_cases hst : includeB le upper b.lower ≠ includeB le upper b.upper ∧ upper ≠ b.lower
      · rw [if_pos hst]
        constructor
        · intro _; exact ⟨b, List.mem_cons_self _ _, hbe', hst.1, hst.2⟩
        · intro _; exact ⟨_, rfl⟩
      · rw [if_neg hst]
        constructor
        · rintro ⟨e, he⟩
          rw [exceptBind_error] at he
          rcases he with he | ⟨r, _, hr⟩
          · rcases ih.mp ⟨e, he⟩ with ⟨b', hm, hp⟩
            exact ⟨b', List.mem_cons_of_mem _ hm, hp⟩
          · simp at hr
        · rintro ⟨b', hm, hp⟩
          rcases List.mem_cons.mp hm with hh | hh
          · subst hh; exact absurd ⟨hp.2.1, hp.2.2⟩ hst
          · rcases ih.mpr ⟨b', hh, hp⟩ with ⟨e, he⟩
            refine ⟨e, ?_⟩
            rw [exceptBind_error]
            exact Or.inl he

theorem pendingWalk_ok {T : Type} [DecidableEq T] (le : T → T → Bool)
    (upper : List T) (pl : List (Batch T))
    (h : ¬ ∃ b, b ∈ pl ∧ b.isEmpty = false ∧
      includeB le upper b.lower ≠ includeB le upper b.upper ∧ upper ≠ b.lower) :
    pendingWalk le upper pl
      = .ok (pl.filter fun b => !b.isEmpty && includeB le upper b.upper) := by
  induction pl with
  | nil => rfl
  | cons b rest ih =>
    have hrest : ¬ ∃ b', b' ∈ rest ∧ b'.isEmpty = false ∧
        includeB le upper b'.lower ≠ includeB le upper b'.upper ∧ upper ≠ b'.lower :=
      fun ⟨b', hm, hp⟩ => h ⟨b', List.mem_cons_of_mem _ hm, hp⟩
    rw [pendingWalk]
    by_cases hbe : b.isEmpty = true
    · rw [if_pos hbe, ih hrest]
      simp [List.filter_cons, hbe]
    · have hbe' : b.isEmpty = false := by simpa using hbe
      have hst : ¬(includeB le upper b.lower ≠ includeB le upper b.upper ∧ upper ≠ b.lower) :=
        fun hc => h ⟨b, List.mem_cons_self _ _, hbe', hc.1, hc.2⟩
      rw [if_neg hbe, if_neg hst, ih hrest]
      by_cases hiu : includeB le upper b.upper = true
      · simp [Bind.bind, Except.bind, List.filter_cons, hbe', hiu]
      · simp [Bind.bind, Except.bind, List.filter_cons, hbe',
          Bool.of_not_eq_true hiu]

/-- C3: under the two entry assertions of cursor_through, the call is fatal
exactly when some non-empty pending batch is straddled by the query upper
(its include_lower and include_upper disagree and upper differs from its
lower bound); a non-fatal call returns the layer batches followed by
exactly those pending batches that are non-empty with include_upper. -/
theorem c3_cursor_through_straddle {T : Type} [DecidableEq T] (le : T → T → Bool)
    (s : Spine T) (upper : List T)
    (h1 : s.advance_frontier ≠ [])
    (h2 : (upper.all fun t1 => s.through_frontier.any fun t2 => le t2 t1) = true) :
    ((∃ e, cursorThrough le s upper = .error e) ↔
      ∃ b, b ∈ s.pending ∧ b.isEmpty = false ∧
        includeB le upper b.lower ≠ includeB le upper b.upper ∧ upper ≠ b.lower)
    ∧ ((¬ ∃ b, b ∈ s.pending ∧ b.isEmpty = false ∧
        includeB le upper b.lower ≠ includeB le upper b.upper ∧ upper ≠ b.lower) →
      cursorThrough le s upper
        = .ok (some (layerBatches s.merging
            ++ s.pending.filter fun b => !b.isEmpty && includeB le upper b.upper))) := by
  have hct : cursorThrough le s upper
      = pendingWalk le upper s.pending >>= fun ps =>
          .ok (some (layerBatches s.merging ++ ps)) := by
    unfold cursorThrough
    rw [if_neg (by simpa [List.length_eq_zero] using h1), if_neg (by simp [h2])]
  constructor
  · rw [hct, ← pendingWalk_error_iff le upper s.pending]
    constructor
    · rintro ⟨e, he⟩
      rw [exceptBind_error] at he
      rcases he with he | ⟨r, _, hr⟩
      · exact ⟨e, he⟩
      · simp at hr
    · rintro ⟨e, he⟩
      exact ⟨e, by rw [exceptBind_error]; exact Or.inl he⟩
  · intro hno
    rw [hct, pendingWalk_ok le upper s.pending hno]
    simp [Bind.bind, Except.bind]

/-- C3 witness: the non-straddled spine c3Spine with query upper [2]. -/
theorem c3_witness :
    ((∃ e, cursorThrough natLe c3Spine [2] = .error e) ↔
      ∃ b, b ∈ c3Spine.pending ∧ b.isEmpty = false ∧
        includeB natLe [2] b.lower ≠ includeB natLe [2] b.upper ∧ [2] ≠ b.lower)
    ∧ ((¬ ∃ b, b ∈ c3Spine.pending ∧ b.isEmpty = false ∧
        includeB natLe [2] b.lower ≠ includeB natLe [2] b.upper ∧ [2] ≠ b.lower) →
      cursorThrough natLe c3Spine [2]
        = .ok (some (layerBatches c3Spine.merging
            ++ c3Spine.pending.filter fun b => !b.isEmpty && includeB natLe [2] b.upper))) :=
  c3_cursor_through_straddle natLe c3Spine [2] (by decide) (by decide)

theorem introduceBatch_fields {T : Type} [DecidableEq T] {s : Spine T} {batch : Batch T}
    {i : Nat} {s' : Spine T} (h : introduceBatch s batch i = .ok s') :
    s'.pending = s.pending ∧ s'.upper = s.upper ∧ s'.through_frontier = s.through_frontier
    ∧ s'.advance_frontier = s.advance_frontier ∧ s'.effort = s.effort := by
  unfold introduceBatch introduceBatchSteps at h
  rw [exceptBind_ok] at h
  obtain ⟨st, _, h⟩ := h
  rw [exceptBind_ok] at h
  obtain ⟨ml, _, h⟩ := h
  rw [exceptBind_ok] at h
  obtain ⟨ml2, _, h⟩ := h
  rw [exceptBind_ok] at h
  obtain ⟨ml3, _, h⟩ := h
  injection h with h
  subst h
  exact ⟨rfl, rfl, rfl, rfl, rfl⟩

theorem considerGo_fields {T : Type} [DecidableEq T] (le : T → T → Bool) :
    ∀ (fuel : Nat) (s s' : Spine T), considerGo le fuel s = .ok s' →
    s'.upper = s.upper ∧ s'.through_frontier = s.through_frontier
    ∧ s'.advance_frontier = s.advance_frontier ∧ s'.effort = s.effort := by
  intro fuel
  induction fuel with
  | zero =>
    intro s s' h
    injection h with h
    subst h
    exact ⟨rfl, rfl, rfl, rfl⟩
  | succ fuel ih =>
    intro s s' h
    rw [considerGo] at h
    cases hp : s.pending with
    | nil =>
      rw [hp] at h
      injection h with h
      subst h
      exact ⟨rfl, rfl, rfl, rfl⟩
    | cons b rest =>
      rw [hp] at h
      dsimp only at h
      by_cases hd : (s.through_frontier.all fun t1 => b.upper.any fun t2 => le t2 t1) = true
      · rw [if_pos hd] at h
        rw [exceptBind_ok] at h
        obtain ⟨s1, h1, h2⟩ := h
        have hf1 := introduceBatch_fields h1
        have hf2 := ih s1 s' h2
        exact ⟨by rw [hf2.1, hf1.2.1], by rw [hf2.2.1, hf1.2.2.1],
          by rw [hf2.2.2.1, hf1.2.2.2.1], by rw [hf2.2.2.2, hf1.2.2.2.2]⟩
      · rw [if_neg hd] at h
        injection h with h
        subst h
        exact ⟨rfl, rfl, rfl, rfl⟩

/-- C2 (amended): on a spine with non-empty upper, close() builds and
inserts an empty sentinel batch whose lower equals the current upper and
whose upper is the empty frontier; whenever the call returns, the new upper
is empty, so a second close() is a no-op. -/
theorem c2_close_sentinel {T : Type} [DecidableEq T] (le : T → T → Bool) (s : Spine T)
    (h : s.upper ≠ []) :
    closeS le s = considerMerges le
      { s with upper := [], pending := s.pending ++ [⟨s.upper, [], 0⟩] }
    ∧ ∀ s', closeS le s = .ok s' → s'.upper = [] ∧ closeS le s' = .ok s' := by
  have hne : s.upper.isEmpty = false := by
    cases hu : s.upper with
    | nil => exact absurd hu h
    | cons a t => rfl
  have h1 : closeS le s = considerMerges le
      { s with upper := [], pending := s.pending ++ [⟨s.upper, [], 0⟩] } := by
    unfold closeS insertS builderDone
    rw [if_neg (by simp [hne]), if_neg h, if_pos rfl]
  refine ⟨h1, fun s' hok => ?_⟩
  rw [h1] at hok
  unfold considerMerges at hok
  have hf := considerGo_fields le _ _ _ hok
  have hu : s'.upper = [] := hf.1
  refine ⟨hu, ?_⟩
  unfold closeS
  rw [if_pos (by simp [hu])]

/-- C2 counterexample: on the concrete spine with upper [5], close()
appends a sentinel whose upper frontier is empty, not equal to the spine
upper [5] as the claim states. -/
theorem c2_counterexample :
    closeS natLe c2Spine = .ok c2Result
    ∧ c2Result.pending = [⟨c2Spine.upper, [], 0⟩]
    ∧ (⟨c2Spine.upper, [], 0⟩ : Batch Nat).upper ≠ c2Spine.upper :=
  ⟨rfl, rfl, by decide⟩

/-- C2 witness: the amended theorem applied to the concrete spine c2Spine. -/
theorem c2_witness :
    closeS natLe c2Spine = considerMerges natLe
      { c2Spine with upper := [], pending := c2Spine.pending ++ [⟨c2Spine.upper, [], 0⟩] }
    ∧ (c2Result.upper = [] ∧ closeS natLe c2Result = .ok c2Result) :=
  ⟨(c2_close_sentinel natLe c2Spine (by decide)).1,
   (c2_close_sentinel natLe c2Spine (by decide)).2 c2Result rfl⟩

/-- C4 (amended): insert fails fatally if the batch is empty
(lower = upper) or not contiguous (lower different from the spine upper);
the converse does not hold, since a contiguous non-empty insert can still
be fatal in the merge bookkeeping. When the precondition holds, insert
records the batch upper as the spine upper and appends the batch to
pending before merges are considered. -/
theorem c4_insert_contract {T : Type} [DecidableEq T] (le : T → T → Bool)
    (s : Spine T) (batch : Batch T) :
    ((batch.lower = batch.upper ∨ batch.lower ≠ s.upper) →
      ∃ e, insertS le s batch = .error e)
    ∧ (batch.lower ≠ batch.upper → batch.lower = s.upper →
      insertS le s batch = considerMerges le
        { s with upper := batch.upper, pending := s.pending ++ [batch] }) := by
  constructor
  · intro hpre
    unfold insertS
    by_cases hb : batch.lower = batch.upper
    · rw [if_pos hb]; exact ⟨_, rfl⟩
    · rw [if_neg hb, if_neg (hpre.resolve_left hb)]; exact ⟨_, rfl⟩
  · intro hb hc
    unfold insertS
    rw [if_neg hb, if_pos hc]

/-- C4 counterexample: on c4cexSpine the incoming batch [5,6) satisfies the
insert precondition (contiguous and non-empty), yet the call is fatal: the
roll-up of introduce_batch pushes the layer-0 batch into the still
in-progress layer-1 merge. -/
theorem c4_counterexample :
    (⟨[5], [6], 1⟩ : Batch Nat).lower = c4cexSpine.upper
    ∧ (⟨[5], [6], 1⟩ : Batch Nat).lower ≠ (⟨[5], [6], 1⟩ : Batch Nat).upper
    ∧ insertS natLe c4cexSpine ⟨[5], [6], 1⟩
        = .error "Attempted to insert batch into incomplete merge!" :=
  ⟨rfl, by decide, rfl⟩

/-- C4 witness: a violated precondition is fatal on the fresh spine, and a
valid insert equals the post-state followed by consider_merges. -/
theorem c4_witness :
    (∃ e, insertS natLe c4wSpine ⟨[3], [4], 1⟩ = .error e)
    ∧ insertS natLe c4wSpine ⟨[0], [1], 1⟩ = considerMerges natLe
        { c4wSpine with upper := [1], pending := c4wSpine.pending ++ [⟨[0], [1], 1⟩] } :=
  ⟨(c4_insert_contract natLe c4wSpine ⟨[3], [4], 1⟩).1 (Or.inr (by decide)),
   (c4_insert_contract natLe c4wSpine ⟨[0], [1], 1⟩).2 (by decide) rfl⟩

theorem insertAt_layerAt_ne {T : Type} [DecidableEq T] {af : List T}
    {ml : List (MergeState T)} {batch : Batch T} {k : Nat} {ml2 : List (MergeState T)}
    (h : insertAt af ml batch k = .ok ml2) {j : Nat} (hj : j ≠ k) :
    layerAt ml2 j = layerAt ml j := by
  unfold insertAt at h
  rw [exceptMap_ok] at h
  obtain ⟨ms, _, h⟩ := h
  subst h
  rw [layerAt_set_ne _ hj, layerAt_padTo]

theorem insertAt_vacant {T : Type} [DecidableEq T] (af : List T) (ml : List (MergeState T))
    (batch : Batch T) (k : Nat) (h : layerAt ml k = .Vacant) :
    insertAt af ml batch k = .ok ((padTo ml (k + 1)).set k (.Single batch)) := by
  simp only [insertAt]
  rw [layerAt_padTo, h]
  rfl

theorem rollUp_layerAt_le {T : Type} [DecidableEq T] {af : List T}
    {ml : List (MergeState T)} {i : Nat} {ml2 : List (MergeState T)}
    (h : rollUp af ml i = .ok ml2) : ∀ j, j ≤ i → layerAt ml2 j = .Vacant := by
  intro j hj
  simp only [rollUp] at h
  rw [exceptBind_ok] at h
  obtain ⟨merge, _, h⟩ := h
  cases merge with
  | none =>
    dsimp only at h
    injection h with h
    subst h
    rw [layerAt_append, List.length_replicate, if_pos (by omega), layerAt_replicate_vacant]
  | some batch =>
    dsimp only at h
    rw [insertAt_layerAt_ne h (by omega : j ≠ i + 1), layerAt_append,
      List.length_replicate, if_pos (by omega), layerAt_replicate_vacant]

theorem tidyGo_no_double {T : Type} {i : Nat} : ∀ (fuel : Nat) (l : List (MergeState T)),
    (layerAt l (l.length - 1)).isSingle = true →
    (∀ k, k ≤ i → (layerAt l k).isDouble = false) →
    ∀ k, k ≤ i → (layerAt (tidyGo fuel l) k).isDouble = false := by
  intro fuel
  induction fuel with
  | zero => intro l _ hP k hk; exact hP k hk
  | succ fuel ih =>
    intro l hs hP k hk
    rw [tidyGo]
    by_cases hc : trailingZeros (nextPowerOfTwo ((layerAt l (l.length - 1)).len)) < l.length
        ∧ 1 < l.length ∧ (layerAt l (l.length - 2)).isVacant = true
    · rw [if_pos hc]
      have hddlen : l.dropLast.dropLast.length = l.length - 2 := by
        simp [List.length_dropLast]
        omega
      refine ih _ (by rw [layerAt_demote_top]; exact hs) ?_ k hk
      intro k2 hk2
      rw [layerAt_append]
      split
      · rename_i hlt
        have hk2small : k2 + 1 < l.length - 1 := by omega
        rw [layerAt_dropLast (by simp [List.length_dropLast]; omega),
          layerAt_dropLast (by omega)]
        exact hP k2 hk2
      · rename_i hge
        by_cases he : k2 - l.dropLast.dropLast.length = 0
        · rw [he]
          exact isSingle_not_isDouble hs
        · rw [layerAt_of_le (by simp; omega)]
          rfl
    · rw [if_neg hc]
      exact hP k hk

theorem tidyLayers_no_double {T : Type} {i : Nat} {ml ml2 : List (MergeState T)}
    (h : tidyLayers ml = .ok ml2)
    (hP : ∀ k, k ≤ i → (layerAt ml k).isDouble = false) :
    ∀ k, k ≤ i → (layerAt ml2 k).isDouble = false := by
  cases ml with
  | nil => exact absurd h (by simp [tidyLayers])
  | cons ms l =>
    rw [show tidyLayers (ms :: l)
        = (if (layerAt (ms :: l) ((ms :: l).length - 1)).isSingle = true
          then Except.ok (tidyGo (ms :: l).length (ms :: l)) else .ok (ms :: l)) from rfl] at h
    by_cases hs : (layerAt (ms :: l) ((ms :: l).length - 1)).isSingle = true
    · rw [if_pos hs] at h
      injection h with h
      subst h
      exact tidyGo_no_double _ _ hs hP
    · rw [if_neg hs] at h
      injection h with h
      subst h
      exact hP

/-- C1 (amended): immediately after a returning introduce_batch(batch, i),
no two adjacent layers at or below the insertion index i are both Double
(indeed every layer at or below i is Vacant or Single); adjacent Double
layers strictly above the insertion index can survive the call. -/
theorem c1_no_adjacent_doubles_below_index {T : Type} [DecidableEq T] (s : Spine T)
    (batch : Batch T) (i : Nat) (s' : Spine T)
    (h : introduceBatch s batch i = .ok s') :
    ∀ j, j + 1 ≤ i →
      ¬((layerAt s'.merging j).isDouble = true
        ∧ (layerAt s'.merging (j + 1)).isDouble = true) := by
  intro j hj
  unfold introduceBatch introduceBatchSteps at h
  rw [exceptBind_ok] at h
  obtain ⟨st, _, h⟩ := h
  rw [exceptBind_ok] at h
  obtain ⟨ml, hru, h⟩ := h
  rw [exceptBind_ok] at h
  obtain ⟨ml2, hins, h⟩ := h
  rw [exceptBind_ok] at h
  obtain ⟨ml3, htd, h⟩ := h
  injection h with h
  subst h
  have hvac : ∀ k, k ≤ i → layerAt ml k = .Vacant := rollUp_layerAt_le hru
  have hml2 : ml2 = (padTo ml (i + 1)).set i (.Single batch) := by
    rw [insertAt_vacant s.advance_frontier ml batch i (hvac i (Nat.le_refl i))] at hins
    injection hins with hins
    exact hins.symm
  have hnd : ∀ k, k ≤ i → (layerAt ml2 k).isDouble = false := by
    intro k hk
    rw [hml2]
    by_cases hki : k = i
    · subst hki
      rw [layerAt_set_eq _ (by rw [padTo_length]; omega)]
      rfl
    · rw [layerAt_set_ne _ hki, layerAt_padTo, hvac k hk]
      rfl
  have hnd3 : ∀ k, k ≤ i → (layerAt ml3 k).isDouble = false :=
    tidyLayers_no_double htd hnd
  rintro ⟨hD1, _⟩
  have hfalse := hnd3 j (by omega)
  rw [hD1] at hfalse
  exact absurd hfalse (by simp)

/-- C1 counterexample: on c1cexSpine (two in-progress merges at layers 2
and 3, each far from finished) introduce_batch(⟨[4],[5],1⟩, 0) returns
normally, yet layers 2 and 3 of the result are both Double. -/
theorem c1_counterexample :
    introduceBatch c1cexSpine ⟨[4], [5], 1⟩ 0 = .ok c1cexResult
    ∧ (layerAt c1cexResult.merging 2).isDouble = true
    ∧ (layerAt c1cexResult.merging 3).isDouble = true :=
  ⟨rfl, rfl, rfl⟩

/-- C1 witness: the amended theorem applied to a concrete successful
introduce_batch at index 1. -/
theorem c1_witness :
    ¬((layerAt c1wResult.merging 0).isDouble = true
      ∧ (layerAt c1wResult.merging 1).isDouble = true) :=
  c1_no_adjacent_doubles_below_index c1wSpine ⟨[0], [1], 2⟩ 1 c1wResult rfl 0 (by omega)

end SpineFueled
